import Mathlib

/-!
Verification of the three Blender add-on modules of this repository:
`transform_saver/__init__.py` (per-object transform snapshot groups),
`NameExporter.py` (batch export by object name), and `SuperRenamer.py`
(batch renaming).  The host (bpy) object graph is embedded explicitly:
objects are looked up by name in a map, selection state is a record, and
host-side export / regex-library calls are parameters of the model.
Python strings are embedded as `List Char`; Blender float vectors carry
exact values (copying them is exact, which is all the code does with them).
-/

/-! ### Transform Saver: data model (`transform_saver/__init__.py`) -/

namespace TransformSaver

/-- A 3-component vector (location / rotation_euler / scale).  The add-on
only ever copies such vectors whole or overwrites them with the constants
0 and 1, so the component type is any value type; `Int` keeps everything
decidable. -/
abbrev Vec3 := Int × Int × Int

/-- A scene object as the add-on touches it: `obj.location`,
`obj.rotation_euler`, `obj.scale`. -/
structure Obj where
  location : Vec3
  rotation_euler : Vec3
  scale : Vec3
deriving DecidableEq

/-- `bpy.data.objects`: objects are looked up by name; Blender keeps names
unique, so the collection is a map from name to object. -/
abbrev Objects := String → Option Obj

/-- `bpy.data.objects.get(name)`. -/
def Objects.get (objs : Objects) (n : String) : Option Obj := objs n

/-- In-place mutation of the object named `n` (e.g. `obj.location = ...`):
the map with that name re-bound. -/
def Objects.set (objs : Objects) (n : String) (o : Obj) : Objects :=
  fun m => if m = n then some o else objs m

/-- `TransformData` property group: object name (weak reference),
the three saved vectors, and the `has_saved` flag. -/
structure TransformData where
  object_name : String
  location : Vec3
  rotation : Vec3
  scale : Vec3
  has_saved : Bool
deriving DecidableEq

/-- `TransformGroup` property group (the UI-only `expanded` flag included). -/
structure TransformGroup where
  name : String
  items : List TransformData
  expanded : Bool
  apply_location : Bool
  apply_rotation : Bool
  apply_scale : Bool
deriving DecidableEq

/-- `group.items.add()` followed by `item.object_name = obj.name` and
`item.has_saved = False` (TRANSFORMSAVER_OT_item_add): a fresh item carries
the property defaults location=(0,0,0), rotation=(0,0,0), scale=(1,1,1). -/
def newItem (n : String) : TransformData :=
  { object_name := n, location := (0, 0, 0), rotation := (0, 0, 0),
    scale := (1, 1, 1), has_saved := false }

/-- The loop of `TRANSFORMSAVER_OT_item_add.execute`: walk the selected
object names, skipping (and counting) any name already in `existing`,
appending a fresh item (and recording the name) otherwise.
Returns (items, existing_names, added, skipped). -/
def item_add_go (items : List TransformData) (existing : List String)
    (added skipped : Nat) :
    List String → List TransformData × List String × Nat × Nat
  | [] => (items, existing, added, skipped)
  | n :: rest =>
    if n ∈ existing then
      item_add_go items existing added (skipped + 1) rest
    else
      item_add_go (items ++ [newItem n]) (n :: existing) (added + 1) skipped rest

/-- `TRANSFORMSAVER_OT_item_add.execute` on one group: `existing_names`
starts as the set of the group's item names; selected objects are the list
of selected object names.  Returns (group, added, skipped). -/
def item_add (g : TransformGroup) (selected : List String) :
    TransformGroup × Nat × Nat :=
  let r := item_add_go g.items (g.items.map (fun it => it.object_name)) 0 0 selected
  ({ g with items := r.1 }, r.2.2.1, r.2.2.2)

/-- `TRANSFORMSAVER_OT_item_remove.execute`: remove the item at the given
index when it is in range. -/
def item_remove (g : TransformGroup) (i : Nat) : TransformGroup :=
  if i < g.items.length then { g with items := g.items.eraseIdx i } else g

/-- `TRANSFORMSAVER_OT_clean_missing.execute`: remove every item whose
`object_name` is not in `bpy.data.objects` (the source iterates from the
back only to keep Blender collection indices stable while removing; the
items kept, in order, are exactly this filter).  Returns (group, removed). -/
def clean_missing (objs : Objects) (g : TransformGroup) : TransformGroup × Nat :=
  ({ g with items := g.items.filter (fun it => (objs.get it.object_name).isSome) },
   g.items.countP (fun it => !(objs.get it.object_name).isSome))

/-- `apply_zero(item, apply_loc, apply_rot, apply_scale)`: reset the
object's transform channels to 0/1.  Returns the updated object map and
the `(success, error)` pair of the source. -/
def apply_zero (objs : Objects) (item : TransformData)
    (apply_loc apply_rot apply_sc : Bool) : Objects × Bool × Option String :=
  if item.has_saved = false then (objs, false, some "No saved data")
  else
    match objs.get item.object_name with
    | none => (objs, false, some "Object not found")
    | some obj =>
      let obj := if apply_loc then { obj with location := (0, 0, 0) } else obj
      let obj := if apply_rot then { obj with rotation_euler := (0, 0, 0) } else obj
      let obj := if apply_sc then { obj with scale := (1, 1, 1) } else obj
      (objs.set item.object_name obj, true, none)

/-- `apply_restore(item, apply_loc, apply_rot, apply_scale)`: write the
saved vectors back onto the object.  Returns the updated object map and
the `(success, error)` pair of the source. -/
def apply_restore (objs : Objects) (item : TransformData)
    (apply_loc apply_rot apply_sc : Bool) : Objects × Bool × Option String :=
  if item.has_saved = false then (objs, false, some "No saved data")
  else
    match objs.get item.object_name with
    | none => (objs, false, some "Object not found")
    | some obj =>
      let obj := if apply_loc then { obj with location := item.location } else obj
      let obj := if apply_rot then { obj with rotation_euler := item.rotation } else obj
      let obj := if apply_sc then { obj with scale := item.scale } else obj
      (objs.set item.object_name obj, true, none)

/-- One iteration of the `TRANSFORMSAVER_OT_save_all.execute` loop: when
the object exists, copy its location / rotation_euler / scale into the
item and set `has_saved`; otherwise leave the item alone.  The Bool says
whether the iteration counted. -/
def save_item (objs : Objects) (item : TransformData) : TransformData × Bool :=
  match objs.get item.object_name with
  | none => (item, false)
  | some obj =>
    ({ item with location := obj.location, rotation := obj.rotation_euler,
                 scale := obj.scale, has_saved := true }, true)

/-- `TRANSFORMSAVER_OT_save_all.execute`: each loop iteration reads only
`bpy.data.objects` (which the loop never changes) and writes only its own
item, so the loop is a map over the items plus the count of the hits.
Returns (group, count). -/
def save_all (objs : Objects) (g : TransformGroup) : TransformGroup × Nat :=
  ({ g with items := g.items.map (fun it => (save_item objs it).1) },
   g.items.countP (fun it => (save_item objs it).2))

/-- `TRANSFORMSAVER_OT_zero_all.execute`: fold `apply_zero` with the
group's apply flags over the items, counting successes.  The group's item
list is never written, so it passes through.  Returns (objects, group, count). -/
def zero_all (objs : Objects) (g : TransformGroup) :
    Objects × TransformGroup × Nat :=
  let r := g.items.foldl
    (fun (acc : Objects × Nat) it =>
      let s := apply_zero acc.1 it g.apply_location g.apply_rotation g.apply_scale
      (s.1, if s.2.1 then acc.2 + 1 else acc.2))
    (objs, 0)
  (r.1, g, r.2)

/-- `TRANSFORMSAVER_OT_restore_all.execute`: fold `apply_restore` with the
group's apply flags over the items, counting successes.  The group's item
list is never written, so it passes through.  Returns (objects, group, count). -/
def restore_all (objs : Objects) (g : TransformGroup) :
    Objects × TransformGroup × Nat :=
  let r := g.items.foldl
    (fun (acc : Objects × Nat) it =>
      let s := apply_restore acc.1 it g.apply_location g.apply_rotation g.apply_scale
      (s.1, if s.2.1 then acc.2 + 1 else acc.2))
    (objs, 0)
  (r.1, g, r.2)

/-- An item is in sync with the object map: whenever its object resolves,
the item has saved data and its vectors equal the object's transform. -/
def synced (objs : Objects) (item : TransformData) : Prop :=
  ∀ obj, objs.get item.object_name = some obj →
    item.has_saved = true ∧ item.location = obj.location ∧
    item.rotation = obj.rotation_euler ∧ item.scale = obj.scale

/-- Sample object for concrete witnesses. -/
def sampleObj : Obj :=
  { location := (1, 2, 3), rotation_euler := (4, 5, 6), scale := (7, 8, 9) }

/-- Sample object map: one object named "Cube". -/
def sampleObjs : Objects := fun n => if n = "Cube" then some sampleObj else none

/-- Sample group holding one fresh item for "Cube", all apply flags on. -/
def sampleGroup : TransformGroup :=
  { name := "Group 1", items := [newItem "Cube"], expanded := true,
    apply_location := true, apply_rotation := true, apply_scale := true }

end TransformSaver

/-! ### Name Exporter: data model (`NameExporter.py`) -/

namespace NameExporter

/-- `obj.type`: the exporter only distinguishes meshes. -/
inductive ObjType
  | MESH
  | OTHER
deriving DecidableEq

/-- A scene object as `gather_targets` reads it: name, type, and the result
of `visible_get()`. -/
structure SceneObj where
  name : String
  otype : ObjType
  visible : Bool
deriving DecidableEq

/-- A collection: its own objects and its child collections. -/
inductive Coll
  | node (objects : List SceneObj) (children : List Coll)

/-- The context as `gather_targets` reads it. -/
structure Ctx where
  selected_objects : List SceneObj
  view_layer_objects : List SceneObj

/-- The scope enum of `EBN_Props.scope`. -/
inductive Scope
  | SELECTED
  | VISIBLE
  | COLLECTION
deriving DecidableEq

mutual

/-- `iter_collection_objects(coll, recursive)`: the collection's own
objects, then (when recursive) the objects of every child, recursively. -/
def iter_collection_objects (c : Coll) (recursive : Bool) : List SceneObj :=
  match c with
  | .node objects children =>
    objects ++ (if recursive then iter_children children else [])

/-- `yield from iter_collection_objects(c, recursive=True)` over the
child list. -/
def iter_children (cs : List Coll) : List SceneObj :=
  match cs with
  | [] => []
  | c :: rest => iter_collection_objects c true ++ iter_children rest

end

/-- `mesh_and_visible_filter` inside `gather_targets`: keep meshes, and
when `visible_only` is set keep only visible ones. -/
def mesh_and_visible_filter (visible_only : Bool) (objs : List SceneObj) :
    List SceneObj :=
  objs.filter (fun o => decide (o.otype = ObjType.MESH) && (!visible_only || o.visible))

/-- One assignment `uniq[o.name] = o` of the dict comprehension
`{o.name: o for o in objs}` (python dicts keep insertion order and update
an existing key in place). -/
def dictUpsert (m : List (String × SceneObj)) (o : SceneObj) :
    List (String × SceneObj) :=
  if m.any (fun p => p.1 == o.name) then
    m.map (fun p => if p.1 == o.name then (p.1, o) else p)
  else
    m ++ [(o.name, o)]

/-- `uniq[k]`: lookup by key. -/
def dictGet (m : List (String × SceneObj)) (k : String) : Option SceneObj :=
  (m.find? (fun p => p.1 == k)).map (fun p => p.2)

/-- Invariant of the name-keyed dict: keys are distinct, each entry is
keyed by its object's name, and every stored object satisfies `P`. -/
def dictInv (P : SceneObj → Prop) (m : List (String × SceneObj)) : Prop :=
  (m.map (fun p => p.1)).Nodup ∧ ∀ p ∈ m, p.1 = p.2.name ∧ P p.2

/-- `uniq = {o.name: o for o in objs}; return [uniq[k] for k in sorted(uniq.keys())]`.
The keys (all distinct) are sorted by the string order; `insertionSort`
produces that sorted arrangement. -/
def uniqSorted (objs : List SceneObj) : List SceneObj :=
  let uniq := objs.foldl dictUpsert []
  ((uniq.map (fun p => p.1)).insertionSort (fun a b => a ≤ b)).filterMap
    (fun k => dictGet uniq k)

/-- `gather_targets(context, scope, collection, recursive, visible_only)`. -/
def gather_targets (ctx : Ctx) (scope : Scope) (collection : Option Coll)
    (recursive : Bool) (visible_only : Bool) : List SceneObj :=
  match scope with
  | .SELECTED => uniqSorted (mesh_and_visible_filter visible_only ctx.selected_objects)
  | .VISIBLE => uniqSorted (ctx.view_layer_objects.filter
      (fun o => decide (o.otype = ObjType.MESH) && o.visible))
  | .COLLECTION =>
    match collection with
    | none => []
    | some coll =>
      uniqSorted (mesh_and_visible_filter visible_only
        (iter_collection_objects coll recursive))

/-- What one `do_export` call does for one target, as the host performs it:
success with the written path, or a raised exception with its message. -/
inductive ExportOutcome
  | exportOk (path : String)
  | exportErr (msg : String)
deriving DecidableEq

/-- The per-target log line the `EBN_OT_export.execute` loop appends:
`OK: name -> path` on success, `NG: name -> error` on a caught exception. -/
def tryLine (attempt : String → ExportOutcome) (n : String) : String :=
  match attempt n with
  | .exportOk p => "OK: " ++ n ++ " -> " ++ p
  | .exportErr e => "NG: " ++ n ++ " -> " ++ e

/-- One iteration of the export loop over `(log_lines, ok_count, ng_count)`:
the `try` around `do_export` appends one OK line and counts on success, and
the `except` appends one NG line and counts on failure, never re-raising. -/
def export_step (attempt : String → ExportOutcome)
    (acc : List String × Nat × Nat) (n : String) : List String × Nat × Nat :=
  match attempt n with
  | .exportOk p => (acc.1 ++ ["OK: " ++ n ++ " -> " ++ p], acc.2.1 + 1, acc.2.2)
  | .exportErr e => (acc.1 ++ ["NG: " ++ n ++ " -> " ++ e], acc.2.1, acc.2.2 + 1)

/-- The `for obj in targets` loop of `EBN_OT_export.execute`, starting from
`log_lines = []`, `ok_count, ng_count = 0, 0`. -/
def export_loop (attempt : String → ExportOutcome) (targets : List String) :
    List String × Nat × Nat :=
  targets.foldl (export_step attempt) ([], 0, 0)

/-- Operator return values. -/
inductive OpResult
  | FINISHED
  | CANCELLED
deriving DecidableEq

/-- `EBN_OT_export.execute` after target gathering: with no targets it
reports a warning and returns CANCELLED; otherwise it runs the loop under
`preserve_selection` and returns FINISHED with the final tally. -/
def ebn_export_execute (attempt : String → ExportOutcome)
    (targets : List String) : OpResult × List String × Nat × Nat :=
  if targets.isEmpty then (OpResult.CANCELLED, [], 0, 0)
  else (OpResult.FINISHED, export_loop attempt targets)

/-- Predicate on a target: its export attempt raises. -/
def attemptFails (attempt : String → ExportOutcome) (n : String) : Bool :=
  match attempt n with
  | .exportErr _ => true
  | .exportOk _ => false

/-- The view-layer selection state: selected object names and the active
object (names; Blender object names are unique). -/
structure SelState where
  selected : List String
  active : Option String
deriving DecidableEq

/-- The `finally` block of `preserve_selection`: deselect all, re-select
every previously selected object that still exists, and re-activate the
previous active object when it still exists (otherwise the active object
is whatever the body left, deselect_all does not change it). -/
def restore_selection (existsNow : String → Bool) (prev_sel : List String)
    (prev_active : Option String) (cur : SelState) : SelState :=
  { selected := prev_sel.filter existsNow,
    active := match prev_active with
      | some a => if existsNow a then some a else cur.active
      | none => cur.active }

/-- `with preserve_selection(context): body` — capture the selection, run
the body (which may change selection arbitrarily), restore.  `existsAfter`
is `name in bpy.data.objects` after the body ran. -/
def preserve_selection_run (existsAfter : String → Bool)
    (body : SelState → SelState) (s : SelState) : SelState :=
  restore_selection existsAfter s.selected s.active (body s)

/-- Sample attempt for concrete witnesses: "B" fails, everything else
succeeds into a file named after the object. -/
def sampleAttempt : String → ExportOutcome := fun n =>
  if n = "B" then ExportOutcome.exportErr "boom" else ExportOutcome.exportOk (n ++ ".fbx")

end NameExporter

/-! ### Super Renamer: data model (`SuperRenamer.py`)

Python strings are `List Char`; `str.upper()`, `str.lower()` and the
character classes of the regexes are taken on the basic-latin letters
(`Char.toUpper` / `Char.toLower`), matching Python on ASCII names. -/

namespace SuperRenamer

/-- The character class `[A-Z]` of `to_snake_case`'s first regex. -/
def isAZ (c : Char) : Bool := 65 ≤ c.toNat && c.toNat ≤ 90

/-- The character class `[\s\-]`: ASCII whitespace (space, tab, newline,
carriage return, vertical tab, form feed) or a hyphen. -/
def isSpaceDash (c : Char) : Bool :=
  c == ' ' || c == '\t' || c == '\n' || c == '\r' || c == '\x0b' || c == '\x0c' || c == '-'

/-- The class `[_\s\-]` used by `to_camel_case` / `to_title_case` splits. -/
def isSepU (c : Char) : Bool := c == '_' || isSpaceDash c

/-- `re.sub(r'(?<!^)(?=[A-Z])', '_', ...)` past the first character: an
underscore in front of every capital. -/
def camelTail : List Char → List Char
  | [] => []
  | c :: rest => if isAZ c then '_' :: c :: camelTail rest else c :: camelTail rest

/-- `re.sub(r'(?<!^)(?=[A-Z])', '_', name)`: the first position is exempt
(`(?<!^)`), every later capital gets an underscore in front. -/
def camelSplit : List Char → List Char
  | [] => []
  | c :: rest => c :: camelTail rest

/-- `re.sub` with a pattern `[class]+` and a one-character replacement:
each maximal run of class characters becomes the one replacement
character.  `inRun` records whether the previous character was in the
class (so the run already produced its replacement). -/
def subRunsGo (p : Char → Bool) (r : Char) : Bool → List Char → List Char
  | _, [] => []
  | inRun, c :: rest =>
    if p c then
      if inRun then subRunsGo p r true rest
      else r :: subRunsGo p r true rest
    else c :: subRunsGo p r false rest

/-- `re.sub(r'[class]+', r, l)` for a one-character replacement `r`. -/
def subRuns (p : Char → Bool) (r : Char) (l : List Char) : List Char :=
  subRunsGo p r false l

/-- `str.strip(c)`: drop the character from both ends. -/
def stripChar (c : Char) (l : List Char) : List Char :=
  ((l.dropWhile (fun d => d == c)).reverse.dropWhile (fun d => d == c)).reverse

/-- `to_snake_case`: underscore before capitals, `[\s\-]+` runs to `_`,
`_+` runs to `_`, lower-case, strip underscores. -/
def to_snake_case (name : List Char) : List Char :=
  stripChar '_'
    ((subRuns (fun c => c == '_') '_'
      (subRuns isSpaceDash '_' (camelSplit name))).map Char.toLower)

/-- `re.split(r'[sep]+', name)` with the empty parts dropped (the callers
keep only `word for word in parts if word`). -/
def splitSepGo (p : Char → Bool) (acc : List Char) :
    List Char → List (List Char)
  | [] => if acc.isEmpty then [] else [acc.reverse]
  | c :: rest =>
    if p c then
      if acc.isEmpty then splitSepGo p [] rest
      else acc.reverse :: splitSepGo p [] rest
    else splitSepGo p (c :: acc) rest

/-- `word.capitalize()`: first character upper-cased, the rest
lower-cased. -/
def capitalizeWord : List Char → List Char
  | [] => []
  | c :: rest => Char.toUpper c :: rest.map Char.toLower

/-- `to_camel_case`: split on `[_\s\-]+`, capitalize each word, join. -/
def to_camel_case (name : List Char) : List Char :=
  ((splitSepGo isSepU [] name).map capitalizeWord).flatten

/-- `to_lower_camel_case`: CamelCase with the first character lowered. -/
def to_lower_camel_case (name : List Char) : List Char :=
  match to_camel_case name with
  | [] => []
  | c :: rest => Char.toLower c :: rest

/-- `to_kebab_case`: snake_case with underscores replaced by hyphens. -/
def to_kebab_case (name : List Char) : List Char :=
  (to_snake_case name).map (fun c => if c == '_' then '-' else c)

/-- `to_title_case`: split on `[_\s\-]+`, capitalize, join with spaces. -/
def to_title_case (name : List Char) : List Char :=
  List.intercalate [' '] ((splitSepGo isSepU [] name).map capitalizeWord)

/-- The shape of `to_snake_case`'s output: no capital letters, no
whitespace or hyphen characters, no two adjacent underscores, and no
underscore at either end. -/
def SnakeNF (l : List Char) : Prop :=
  (∀ c ∈ l, isAZ c = false ∧ isSpaceDash c = false) ∧
  List.Chain' (fun a b => ¬(a = '_' ∧ b = '_')) l ∧
  (∀ c ∈ l.head?, c ≠ '_') ∧ (∀ c ∈ l.getLast?, c ≠ '_')

/-- `SuperRenamerProperties.case_type`. -/
inductive CaseType
  | UPPER
  | LOWER
  | TITLE
  | SNAKE
  | CAMEL
  | LOWER_CAMEL
  | KEBAB
deriving DecidableEq

/-- `apply_case_conversion(name, case_type)`. -/
def apply_case_conversion (name : List Char) (case_type : CaseType) : List Char :=
  match case_type with
  | .UPPER => name.map Char.toUpper
  | .LOWER => name.map Char.toLower
  | .TITLE => to_title_case name
  | .SNAKE => to_snake_case name
  | .CAMEL => to_camel_case name
  | .LOWER_CAMEL => to_lower_camel_case name
  | .KEBAB => to_kebab_case name

/-- `SuperRenamerProperties.operation`. -/
inductive Operation
  | REPLACE
  | PREFIX
  | SUFFIX
  | REMOVE_PREFIX
  | REMOVE_SUFFIX
  | NUMBERING
  | CASE
  | REGEX
deriving DecidableEq

/-- The two `re` library calls `apply_rename` hands whole to Python's
regex engine: `re.sub` with `re.IGNORECASE` on an escaped literal, and
`re.sub` on a user pattern (`none` models `re.error`).  They are host
library behavior, taken as parameters of the model. -/
structure RegexOracle where
  subIgnoreCase : List Char → List Char → List Char → List Char
  subPattern : List Char → List Char → List Char → Option (List Char)

/-- The fields of `SuperRenamerProperties` that `apply_rename` reads. -/
structure RenamerProps where
  operation : Operation
  find_string : List Char
  replace_string : List Char
  case_sensitive : Bool
  prefix_string : List Char
  suffix_string : List Char
  case_type : CaseType
  regex_pattern : List Char
  regex_replace : List Char

/-- `str.replace(find, repl)`: scan left to right, replacing
non-overlapping occurrences.  (`apply_rename` only reaches this with a
non-empty `find`; on an empty `find` this model keeps the string.) -/
def replaceAll (find repl : List Char) : List Char → List Char
  | [] => []
  | c :: rest =>
    if find ≠ [] ∧ find.isPrefixOf (c :: rest) then
      repl ++ replaceAll find repl ((c :: rest).drop find.length)
    else
      c :: replaceAll find repl rest
termination_by s => s.length
decreasing_by
  · rename_i hcond
    simp only [List.length_drop, List.length_cons]
    have : find.length ≠ 0 := fun h => hcond.1 (List.eq_nil_of_length_eq_zero h)
    omega
  · simp

/-- `apply_rename(name, props)`: the per-name transform (NUMBERING is not
a branch of the source's if-chain, so it keeps the name unchanged here;
the operator handles numbering through `apply_numbering` instead). -/
def apply_rename (reLib : RegexOracle) (name : List Char)
    (props : RenamerProps) : List Char :=
  match props.operation with
  | .REPLACE =>
    if props.find_string.isEmpty then name
    else if props.case_sensitive then
      replaceAll props.find_string props.replace_string name
    else
      reLib.subIgnoreCase props.find_string props.replace_string name
  | .PREFIX => props.prefix_string ++ name
  | .SUFFIX => name ++ props.suffix_string
  | .REMOVE_PREFIX =>
    if props.prefix_string ≠ [] ∧ props.prefix_string <+: name then
      name.drop props.prefix_string.length
    else name
  | .REMOVE_SUFFIX =>
    if props.suffix_string ≠ [] ∧ props.suffix_string <:+ name then
      name.take (name.length - props.suffix_string.length)
    else name
  | .NUMBERING => name
  | .CASE => apply_case_conversion name props.case_type
  | .REGEX =>
    if props.regex_pattern.isEmpty then name
    else
      match reLib.subPattern props.regex_pattern props.regex_replace name with
      | some r => r
      | none => name

/-- A regex oracle for concrete witnesses (never reached by the claims'
branches). -/
def sampleRe : RegexOracle :=
  { subIgnoreCase := fun _ _ s => s, subPattern := fun _ _ _ => none }

/-- Sample properties for concrete witnesses. -/
def sampleProps : RenamerProps :=
  { operation := Operation.CASE,
    find_string := [], replace_string := [], case_sensitive := true,
    prefix_string := ['S', 'M', '_'], suffix_string := ['_', 'l', 'o', 'w'],
    case_type := CaseType.SNAKE, regex_pattern := [], regex_replace := [] }

end SuperRenamer

/-! ## Theorems -/

/-! ### Transform Saver: helper lemmas -/

namespace TransformSaver

theorem get_set (objs : Objects) (n m : String) (o : Obj) :
    (objs.set n o).get m = if m = n then some o else objs.get m := rfl

theorem save_item_name (objs : Objects) (it : TransformData) :
    ((save_item objs it).1).object_name = it.object_name := by
  unfold save_item
  cases objs.get it.object_name <;> simp

theorem save_item_synced (objs : Objects) (it : TransformData) :
    synced objs ((save_item objs it).1) := by
  intro ob hg
  rw [save_item_name] at hg
  unfold save_item
  cases hg0 : objs.get it.object_name with
  | none => rw [hg0] at hg; exact absurd hg (by simp)
  | some o0 =>
    rw [hg0] at hg
    injection hg with h
    subst h
    simp [hg0]

theorem synced_congr (a b : Objects) (item : TransformData)
    (hab : ∀ n, a.get n = b.get n) (h : synced b item) : synced a item := by
  intro obj hg
  exact h obj ((hab item.object_name) ▸ hg)

theorem apply_restore_synced_get (objs : Objects) (item : TransformData)
    (h : synced objs item) (n : String) :
    ((apply_restore objs item true true true).1).get n = objs.get n := by
  unfold apply_restore
  cases hs : item.has_saved with
  | false => simp [hs]
  | true =>
    simp only [hs]
    cases hg : objs.get item.object_name with
    | none => simp [hg]
    | some obj =>
      obtain ⟨-, hl, hr, hsc⟩ := h obj hg
      simp only [hg, Bool.true_eq_false, if_true, if_false, reduceIte]
      rw [get_set]
      by_cases hn : n = item.object_name
      · subst hn
        rw [if_pos rfl, hg, hl, hr, hsc]
      · rw [if_neg hn]

theorem restore_fold_get (l : List TransformData) (objs : Objects)
    (hsync : ∀ it ∈ l, synced objs it) (s : Objects × Nat)
    (hs : ∀ n, s.1.get n = objs.get n) (n : String) :
    (l.foldl (fun acc it =>
        let r := apply_restore acc.1 it true true true
        (r.1, if r.2.1 then acc.2 + 1 else acc.2)) s).1.get n = objs.get n := by
  induction l generalizing s with
  | nil => exact hs n
  | cons it rest ih =>
    simp only [List.foldl_cons]
    apply ih (fun x hx => hsync x (List.mem_cons_of_mem _ hx))
    intro m
    have hsy : synced s.1 it :=
      synced_congr s.1 objs it hs (hsync it (List.mem_cons_self _ _))
    have h1 := apply_restore_synced_get s.1 it hsy m
    simp only []
    rw [h1]
    exact hs m

end TransformSaver

namespace TransformSaver

/-- C1: for every transform-snapshot item whose object exists, Save All
(which copies the object's location, rotation_euler and scale into the
item and sets has_saved) followed by Restore All with all three apply
flags enabled leaves the object's location, rotation and scale exactly
equal, component for component, to the vectors that were saved. -/
theorem save_all_then_restore_all_exact (objs : Objects) (g : TransformGroup)
    (hl : g.apply_location = true) (hr : g.apply_rotation = true)
    (hsc : g.apply_scale = true) (item : TransformData) (_hmem : item ∈ g.items)
    (obj : Obj) (hobj : objs.get item.object_name = some obj) :
    ∃ o : Obj,
      ((restore_all objs (save_all objs g).1).1).get item.object_name = some o ∧
      o.location = ((save_item objs item).1).location ∧
      o.rotation_euler = ((save_item objs item).1).rotation ∧
      o.scale = ((save_item objs item).1).scale := by
  have hsync : ∀ it ∈ (save_all objs g).1.items, synced objs it := by
    intro it hit
    simp only [save_all, List.mem_map] at hit
    obtain ⟨it0, -, rfl⟩ := hit
    exact save_item_synced objs it0
  have key : ∀ n, ((restore_all objs (save_all objs g).1).1).get n = objs.get n := by
    intro n
    unfold restore_all
    simp only [save_all, hl, hr, hsc]
    exact restore_fold_get _ objs (by simpa [save_all] using hsync) (objs, 0)
      (fun _ => rfl) n
  refine ⟨obj, ?_, ?_, ?_, ?_⟩
  · rw [key]; exact hobj
  · unfold save_item; simp [hobj]
  · unfold save_item; simp [hobj]
  · unfold save_item; simp [hobj]

/-- C1 witness: the concrete one-object scene, evaluated. -/
theorem save_all_then_restore_all_exact_witness :
    ∃ o : Obj,
      ((restore_all sampleObjs (save_all sampleObjs sampleGroup).1).1).get
          (newItem "Cube").object_name = some o ∧
      o.location = ((save_item sampleObjs (newItem "Cube")).1).location ∧
      o.rotation_euler = ((save_item sampleObjs (newItem "Cube")).1).rotation ∧
      o.scale = ((save_item sampleObjs (newItem "Cube")).1).scale :=
  save_all_then_restore_all_exact sampleObjs sampleGroup rfl rfl rfl
    (newItem "Cube") (by simp [sampleGroup]) sampleObj
    (by simp [sampleObjs, Objects.get, newItem])

end TransformSaver

namespace TransformSaver

theorem item_add_go_spec (rest : List String) :
    ∀ (items : List TransformData) (existing : List String) (a s : Nat),
    (∀ n : String, n ∈ existing ↔ n ∈ items.map (fun it => it.object_name)) →
    ∃ fresh : List TransformData,
      (item_add_go items existing a s rest).1 = items ++ fresh ∧
      (∀ it ∈ fresh, it.has_saved = false ∧ it.location = (0, 0, 0) ∧
        it.rotation = (0, 0, 0) ∧ it.scale = (1, 1, 1)) ∧
      (fresh.map (fun it => it.object_name)).Nodup ∧
      (∀ n ∈ fresh.map (fun it => it.object_name), n ∉ existing) ∧
      (item_add_go items existing a s rest).2.2.1 = a + fresh.length ∧
      (item_add_go items existing a s rest).2.2.1
        + (item_add_go items existing a s rest).2.2.2 = a + s + rest.length := by
  induction rest with
  | nil =>
    intro items existing a s _
    exact ⟨[], by simp [item_add_go]⟩
  | cons n rest ih =>
    intro items existing a s hex
    by_cases hn : n ∈ existing
    · have heq : item_add_go items existing a s (n :: rest)
          = item_add_go items existing a (s + 1) rest := by
        simp [item_add_go, hn]
      obtain ⟨fresh, h1, h2, h3, h4, h5, h6⟩ := ih items existing a (s + 1) hex
      rw [heq]
      exact ⟨fresh, h1, h2, h3, h4, h5, by simp only [List.length_cons]; omega⟩
    · have heq : item_add_go items existing a s (n :: rest)
          = item_add_go (items ++ [newItem n]) (n :: existing) (a + 1) s rest := by
        simp [item_add_go, hn]
      have hex' : ∀ m : String, m ∈ n :: existing ↔
          m ∈ (items ++ [newItem n]).map (fun it => it.object_name) := by
        intro m
        simp only [List.mem_cons, List.map_append, List.mem_append, hex m,
          List.map_cons, List.map_nil, List.mem_singleton, newItem]
        tauto
      obtain ⟨fresh, h1, h2, h3, h4, h5, h6⟩ := ih (items ++ [newItem n]) (n :: existing) (a + 1) s hex'
      rw [heq]
      refine ⟨newItem n :: fresh, ?_, ?_, ?_, ?_, ?_, ?_⟩
      · rw [h1, List.append_assoc]; rfl
      · intro it hit
        rcases List.mem_cons.mp hit with h | h
        · subst h; simp [newItem]
        · exact h2 it h
      · simp only [List.map_cons, List.nodup_cons]
        refine ⟨?_, h3⟩
        intro hmem
        exact h4 _ hmem (by simp [newItem])
      · intro m hm
        simp only [List.map_cons, List.mem_cons] at hm
        rcases hm with h | h
        · subst h; simpa [newItem] using hn
        · intro hmem
          exact h4 m h (List.mem_cons_of_mem _ hmem)
      · rw [h5]; simp; omega
      · rw [h6]; simp; omega

/-- C9: Add Selected preserves pairwise-distinct object_name values in a
group: selected names already present are skipped (counted as duplicates),
each remaining name is added at most once, so no group ever holds two items
with the same object_name. -/
theorem item_add_preserves_distinct (g : TransformGroup) (sel : List String)
    (h : (g.items.map (fun it => it.object_name)).Nodup) :
    ((item_add g sel).1.items.map (fun it => it.object_name)).Nodup ∧
    (item_add g sel).2.1 + (item_add g sel).2.2 = sel.length ∧
    (∃ fresh : List TransformData,
      (item_add g sel).1.items = g.items ++ fresh ∧
      ∀ n ∈ fresh.map (fun it => it.object_name),
        n ∉ g.items.map (fun it => it.object_name)) := by
  obtain ⟨fresh, h1, h2, h3, h4, h5, h6⟩ :=
    item_add_go_spec sel g.items (g.items.map (fun it => it.object_name)) 0 0
      (fun n => Iff.rfl)
  have hitems : (item_add g sel).1.items = g.items ++ fresh := by
    simp only [item_add]; exact h1
  refine ⟨?_, ?_, fresh, hitems, h4⟩
  · rw [hitems, List.map_append, List.nodup_append]
    exact ⟨h, h3, fun n hn hn2 => h4 n hn2 hn⟩
  · have : (item_add g sel).2.1 + (item_add g sel).2.2
        = (item_add_go g.items (g.items.map (fun it => it.object_name)) 0 0 sel).2.2.1
          + (item_add_go g.items (g.items.map (fun it => it.object_name)) 0 0 sel).2.2.2 := by
      simp [item_add]
    rw [this, h6]
    omega

/-- C9 witness: a group over "A" and selection ["A", "B", "B"]. -/
theorem item_add_preserves_distinct_witness :
    (((item_add sampleGroup ["Cube", "B", "B"]).1.items.map
        (fun it => it.object_name)).Nodup) ∧
    (item_add sampleGroup ["Cube", "B", "B"]).2.1
      + (item_add sampleGroup ["Cube", "B", "B"]).2.2 = (["Cube", "B", "B"] : List String).length ∧
    (∃ fresh : List TransformData,
      (item_add sampleGroup ["Cube", "B", "B"]).1.items = sampleGroup.items ++ fresh ∧
      ∀ n ∈ fresh.map (fun it => it.object_name),
        n ∉ sampleGroup.items.map (fun it => it.object_name)) :=
  item_add_preserves_distinct sampleGroup ["Cube", "B", "B"]
    (by simp [sampleGroup, newItem])

end TransformSaver

namespace TransformSaver

theorem apply_restore_success (objs : Objects) (it : TransformData)
    (fl fr fs : Bool) :
    (apply_restore objs it fl fr fs).2.1
      = (it.has_saved && (objs.get it.object_name).isSome) := by
  unfold apply_restore
  cases hs : it.has_saved with
  | false => simp
  | true =>
    simp only [Bool.true_eq_false, if_false, Bool.true_and, reduceIte]
    cases hg : objs.get it.object_name <;> simp [hg]

theorem apply_restore_isSome (objs : Objects) (it : TransformData)
    (fl fr fs : Bool) (n : String) :
    (((apply_restore objs it fl fr fs).1).get n).isSome = ((objs.get n).isSome) := by
  unfold apply_restore
  cases hs : it.has_saved with
  | false => simp
  | true =>
    simp only [Bool.true_eq_false, if_false, reduceIte]
    cases hg : objs.get it.object_name with
    | none => simp
    | some obj =>
      simp only []
      rw [get_set]
      by_cases hn : n = it.object_name
      · subst hn; rw [if_pos rfl, hg]; rfl
      · rw [if_neg hn]

theorem apply_zero_success (objs : Objects) (it : TransformData)
    (fl fr fs : Bool) :
    (apply_zero objs it fl fr fs).2.1
      = (it.has_saved && (objs.get it.object_name).isSome) := by
  unfold apply_zero
  cases hs : it.has_saved with
  | false => simp
  | true =>
    simp only [Bool.true_eq_false, if_false, Bool.true_and, reduceIte]
    cases hg : objs.get it.object_name <;> simp [hg]

theorem apply_zero_isSome (objs : Objects) (it : TransformData)
    (fl fr fs : Bool) (n : String) :
    (((apply_zero objs it fl fr fs).1).get n).isSome = ((objs.get n).isSome) := by
  unfold apply_zero
  cases hs : it.has_saved with
  | false => simp
  | true =>
    simp only [Bool.true_eq_false, if_false, reduceIte]
    cases hg : objs.get it.object_name with
    | none => simp
    | some obj =>
      simp only []
      rw [get_set]
      by_cases hn : n = it.object_name
      · subst hn; rw [if_pos rfl, hg]; rfl
      · rw [if_neg hn]

theorem restore_fold_count (rest : List TransformData) (fl fr fs : Bool) :
    ∀ (objs : Objects) (k : Nat),
    (rest.foldl (fun (acc : Objects × Nat) it =>
        let s := apply_restore acc.1 it fl fr fs
        (s.1, if s.2.1 then acc.2 + 1 else acc.2)) (objs, k)).2
    = k + rest.countP (fun it => it.has_saved && (objs.get it.object_name).isSome) := by
  induction rest with
  | nil => intro objs k; simp
  | cons it rest ih =>
    intro objs k
    simp only [List.foldl_cons, List.countP_cons]
    rw [ih]
    rw [List.countP_congr (fun x _ => by
      rw [apply_restore_isSome objs it fl fr fs x.object_name])]
    rw [apply_restore_success]
    by_cases hp : (it.has_saved && (objs.get it.object_name).isSome) = true
    · rw [hp]; simp; omega
    · rw [Bool.not_eq_true] at hp
      rw [hp]; simp

theorem zero_fold_count (rest : List TransformData) (fl fr fs : Bool) :
    ∀ (objs : Objects) (k : Nat),
    (rest.foldl (fun (acc : Objects × Nat) it =>
        let s := apply_zero acc.1 it fl fr fs
        (s.1, if s.2.1 then acc.2 + 1 else acc.2)) (objs, k)).2
    = k + rest.countP (fun it => it.has_saved && (objs.get it.object_name).isSome) := by
  induction rest with
  | nil => intro objs k; simp
  | cons it rest ih =>
    intro objs k
    simp only [List.foldl_cons, List.countP_cons]
    rw [ih]
    rw [List.countP_congr (fun x _ => by
      rw [apply_zero_isSome objs it fl fr fs x.object_name])]
    rw [apply_zero_success]
    by_cases hp : (it.has_saved && (objs.get it.object_name).isSome) = true
    · rw [hp]; simp; omega
    · rw [Bool.not_eq_true] at hp
      rw [hp]; simp

theorem save_item_success (objs : Objects) (it : TransformData) :
    (save_item objs it).2 = (objs.get it.object_name).isSome := by
  unfold save_item
  cases hg : objs.get it.object_name <;> simp

/-- C5: a snapshot item whose object_name does not resolve at use time is
skipped by save, zero and restore with a non-fatal failure indication, and
each bulk operation still completes, reporting the count of items that
succeeded. -/
theorem missing_object_nonfatal (objs : Objects) (g : TransformGroup)
    (item : TransformData) (al ar asc : Bool)
    (hmiss : objs.get item.object_name = none) :
    ((apply_restore objs item al ar asc).1 = objs ∧
     (apply_restore objs item al ar asc).2.1 = false ∧
     ((apply_restore objs item al ar asc).2.2).isSome = true) ∧
    ((apply_zero objs item al ar asc).1 = objs ∧
     (apply_zero objs item al ar asc).2.1 = false ∧
     ((apply_zero objs item al ar asc).2.2).isSome = true) ∧
    (save_item objs item = (item, false)) ∧
    ((restore_all objs g).2.2
      = g.items.countP (fun it => it.has_saved && (objs.get it.object_name).isSome)) ∧
    ((zero_all objs g).2.2
      = g.items.countP (fun it => it.has_saved && (objs.get it.object_name).isSome)) ∧
    ((save_all objs g).2
      = g.items.countP (fun it => (objs.get it.object_name).isSome)) := by
  refine ⟨?_, ?_, ?_, ?_, ?_, ?_⟩
  · unfold apply_restore
    cases hs : item.has_saved <;> simp [hmiss]
  · unfold apply_zero
    cases hs : item.has_saved <;> simp [hmiss]
  · unfold save_item
    rw [hmiss]
  · unfold restore_all
    simp only []
    rw [restore_fold_count]
    omega
  · unfold zero_all
    simp only []
    rw [zero_fold_count]
    omega
  · unfold save_all
    simp only []
    exact List.countP_congr (fun x _ => by rw [save_item_success])

/-- C5 witness: the operations at a concrete missing object. -/
theorem missing_object_nonfatal_witness :
    ((apply_restore sampleObjs (newItem "Ghost") true true true).1 = sampleObjs ∧
     (apply_restore sampleObjs (newItem "Ghost") true true true).2.1 = false ∧
     ((apply_restore sampleObjs (newItem "Ghost") true true true).2.2).isSome = true) ∧
    ((apply_zero sampleObjs (newItem "Ghost") true true true).1 = sampleObjs ∧
     (apply_zero sampleObjs (newItem "Ghost") true true true).2.1 = false ∧
     ((apply_zero sampleObjs (newItem "Ghost") true true true).2.2).isSome = true) ∧
    (save_item sampleObjs (newItem "Ghost") = (newItem "Ghost", false)) ∧
    ((restore_all sampleObjs sampleGroup).2.2
      = sampleGroup.items.countP
          (fun it => it.has_saved && (sampleObjs.get it.object_name).isSome)) ∧
    ((zero_all sampleObjs sampleGroup).2.2
      = sampleGroup.items.countP
          (fun it => it.has_saved && (sampleObjs.get it.object_name).isSome)) ∧
    ((save_all sampleObjs sampleGroup).2
      = sampleGroup.items.countP
          (fun it => (sampleObjs.get it.object_name).isSome)) :=
  missing_object_nonfatal sampleObjs sampleGroup (newItem "Ghost") true true true
    (by simp [sampleObjs, Objects.get, newItem])

/-- C4: a snapshot item is created empty when an object is added to a
group, its vectors and has_saved flag are populated by a save, and neither
restore nor zero removes or clears items; only the explicit removals
(per-item remove, Clean Missing, group removal) delete items, and Clean
Missing keeps every item whose object still exists. -/
theorem item_lifecycle (objs : Objects) (g : TransformGroup) (sel : List String) :
    (∃ fresh : List TransformData,
      (item_add g sel).1.items = g.items ++ fresh ∧
      ∀ it ∈ fresh, it.has_saved = false ∧ it.location = (0, 0, 0) ∧
        it.rotation = (0, 0, 0) ∧ it.scale = (1, 1, 1)) ∧
    ((save_all objs g).1.items.map (fun it => it.object_name)
      = g.items.map (fun it => it.object_name)) ∧
    (∀ it ∈ g.items, (objs.get it.object_name).isSome = true →
      ((save_item objs it).1).has_saved = true) ∧
    ((restore_all objs g).2.1 = g) ∧
    ((zero_all objs g).2.1 = g) ∧
    ((clean_missing objs g).1.items.Sublist g.items) ∧
    (∀ it ∈ g.items, (objs.get it.object_name).isSome = true →
      it ∈ (clean_missing objs g).1.items) := by
  refine ⟨?_, ?_, ?_, rfl, rfl, ?_, ?_⟩
  · obtain ⟨fresh, h1, h2, -⟩ :=
      item_add_go_spec sel g.items (g.items.map (fun it => it.object_name)) 0 0
        (fun n => Iff.rfl)
    exact ⟨fresh, by simpa [item_add] using h1, h2⟩
  · simp only [save_all, List.map_map]
    exact List.map_congr_left (fun it _ => save_item_name objs it)
  · intro it _ hsome
    unfold save_item
    cases hg : objs.get it.object_name with
    | none => rw [Objects.get] at hsome; rw [Objects.get] at hg; simp [hg] at hsome
    | some o => simp
  · simp only [clean_missing]
    exact List.filter_sublist _
  · intro it hit hsome
    simp only [clean_missing, List.mem_filter]
    exact ⟨hit, hsome⟩

/-- C8: zeroing an object requires a prior save: with has_saved false,
apply_zero returns the 'No saved data' failure and leaves every object's
location, rotation and scale untouched. -/
theorem zero_requires_saved (objs : Objects) (item : TransformData)
    (al ar asc : Bool) (h : item.has_saved = false) :
    apply_zero objs item al ar asc = (objs, false, some "No saved data") := by
  unfold apply_zero
  rw [if_pos h]

/-- C8 witness: a never-saved item, evaluated. -/
theorem zero_requires_saved_witness :
    apply_zero sampleObjs (newItem "Cube") true true true
      = (sampleObjs, false, some "No saved data") :=
  zero_requires_saved sampleObjs (newItem "Cube") true true true rfl

end TransformSaver

/-! ### Name Exporter: lemmas and claims -/

namespace NameExporter

theorem export_loop_go (attempt : String → ExportOutcome) (targets : List String) :
    ∀ acc : List String × Nat × Nat,
    targets.foldl (export_step attempt) acc
      = (acc.1 ++ targets.map (tryLine attempt),
         acc.2.1 + targets.countP (fun n => !(attemptFails attempt n)),
         acc.2.2 + targets.countP (attemptFails attempt)) := by
  induction targets with
  | nil => intro acc; simp
  | cons n rest ih =>
    intro acc
    simp only [List.foldl_cons, List.map_cons, List.countP_cons]
    rw [ih]
    cases h : attempt n with
    | exportOk p =>
      simp [export_step, tryLine, attemptFails, h, List.append_assoc, Prod.ext_iff]
      omega
    | exportErr e =>
      simp [export_step, tryLine, attemptFails, h, List.append_assoc, Prod.ext_iff]
      omega

/-- C2: with a non-empty target list, each per-object export failure is
caught, appended as one NG line to the in-memory log, and counted; the
loop continues with the remaining objects and the operator finishes with
an OK/NG tally whose sum is the number of targets. -/
theorem export_execute_tally (attempt : String → ExportOutcome)
    (targets : List String) (h : targets ≠ []) :
    (ebn_export_execute attempt targets).1 = OpResult.FINISHED ∧
    (ebn_export_execute attempt targets).2.1 = targets.map (tryLine attempt) ∧
    (ebn_export_execute attempt targets).2.2.1
      + (ebn_export_execute attempt targets).2.2.2 = targets.length ∧
    (ebn_export_execute attempt targets).2.2.2
      = targets.countP (attemptFails attempt) := by
  have hne : targets.isEmpty = false := by
    cases targets with
    | nil => exact absurd rfl h
    | cons a l => rfl
  unfold ebn_export_execute export_loop
  rw [hne, export_loop_go]
  refine ⟨by simp, by simp, ?_, by simp⟩
  simp only [Bool.false_eq_true, if_false, List.nil_append, Nat.zero_add]
  rw [Nat.add_comm]
  have h2 := (List.length_eq_countP_add_countP (attemptFails attempt) targets).symm
  simpa [decide_not] using h2

/-- C2 witness: two targets, the second failing. -/
theorem export_execute_tally_witness :
    (ebn_export_execute sampleAttempt ["A", "B"]).1 = OpResult.FINISHED ∧
    (ebn_export_execute sampleAttempt ["A", "B"]).2.1
      = (["A", "B"] : List String).map (tryLine sampleAttempt) ∧
    (ebn_export_execute sampleAttempt ["A", "B"]).2.2.1
      + (ebn_export_execute sampleAttempt ["A", "B"]).2.2.2
      = (["A", "B"] : List String).length ∧
    (ebn_export_execute sampleAttempt ["A", "B"]).2.2.2
      = (["A", "B"] : List String).countP (attemptFails sampleAttempt) :=
  export_execute_tally sampleAttempt ["A", "B"] (by simp)

/-- C6: the selection and the active object captured before the bulk
export are restored when it completes: a name is selected afterwards
exactly when it was selected before and the object still exists, and the
previous active object is active again whenever it still exists. -/
theorem preserve_selection_restores (existsAfter : String → Bool)
    (body : SelState → SelState) (s : SelState) :
    (∀ n, n ∈ (preserve_selection_run existsAfter body s).selected ↔
      (n ∈ s.selected ∧ existsAfter n = true)) ∧
    (∀ a, s.active = some a → existsAfter a = true →
      (preserve_selection_run existsAfter body s).active = some a) := by
  constructor
  · intro n
    simp [preserve_selection_run, restore_selection, List.mem_filter]
  · intro a ha hex
    simp [preserve_selection_run, restore_selection, ha, hex]

end NameExporter

namespace NameExporter

theorem dictUpsert_inv (P : SceneObj → Prop) (m : List (String × SceneObj))
    (o : SceneObj) (hm : dictInv P m) (ho : P o) : dictInv P (dictUpsert m o) := by
  obtain ⟨hnd, hpairs⟩ := hm
  unfold dictUpsert
  by_cases hany : m.any (fun p => p.1 == o.name) = true
  · rw [if_pos hany]
    constructor
    · have : (m.map (fun p => if p.1 == o.name then (p.1, o) else p)).map (fun p => p.1)
          = m.map (fun p => p.1) := by
        rw [List.map_map]
        apply List.map_congr_left
        intro p _
        by_cases hp : p.1 = o.name <;> simp [hp]
      rw [this]
      exact hnd
    · intro p hp
      rw [List.mem_map] at hp
      obtain ⟨q, hq, hfq⟩ := hp
      by_cases hqn : q.1 = o.name
      · have hpq : p = (q.1, o) := by rw [← hfq]; simp [hqn]
        subst hpq
        exact ⟨hqn, ho⟩
      · have hpq : p = q := by rw [← hfq]; simp [hqn]
        rw [hpq]
        exact hpairs q hq
  · rw [if_neg hany]
    constructor
    · rw [List.map_append, List.nodup_append]
      refine ⟨hnd, by simp, ?_⟩
      intro k hk
      simp only [List.map_cons, List.map_nil, List.mem_singleton]
      intro hko
      subst hko
      rw [List.mem_map] at hk
      obtain ⟨q, hq, hq1⟩ := hk
      rw [List.any_eq_true] at hany
      exact hany ⟨q, hq, by simp [hq1]⟩
    · intro p hp
      rw [List.mem_append] at hp
      rcases hp with hp | hp
      · exact hpairs p hp
      · rw [List.mem_singleton] at hp
        subst hp
        exact ⟨rfl, ho⟩

theorem dictFold_inv (P : SceneObj → Prop) (objs : List SceneObj)
    (hP : ∀ o ∈ objs, P o) : dictInv P (objs.foldl dictUpsert []) := by
  have main : ∀ (l : List SceneObj) (m : List (String × SceneObj)),
      (∀ o ∈ l, P o) → dictInv P m → dictInv P (l.foldl dictUpsert m) := by
    intro l
    induction l with
    | nil => intro m _ hm; exact hm
    | cons o rest ih =>
      intro m hl hm
      simp only [List.foldl_cons]
      exact ih (dictUpsert m o)
        (fun x hx => hl x (List.mem_cons_of_mem _ hx))
        (dictUpsert_inv P m o hm (hl o (List.mem_cons_self _ _)))
  exact main objs [] hP ⟨List.nodup_nil, by simp⟩

theorem dictGet_mem (P : SceneObj → Prop) (m : List (String × SceneObj))
    (hm : dictInv P m) (k : String) (hk : k ∈ m.map (fun p => p.1)) :
    ∃ v, dictGet m k = some v ∧ v.name = k ∧ P v := by
  have hsome : (m.find? (fun p => p.1 == k)).isSome = true := by
    rw [List.find?_isSome]
    rw [List.mem_map] at hk
    obtain ⟨q, hq, hq1⟩ := hk
    exact ⟨q, hq, by simp [hq1]⟩
  obtain ⟨q, hq⟩ := Option.isSome_iff_exists.mp hsome
  have hpred := List.find?_some hq
  have hmem := List.mem_of_find?_eq_some hq
  obtain ⟨hname, hPq⟩ := hm.2 q hmem
  refine ⟨q.2, ?_, ?_, hPq⟩
  · unfold dictGet
    rw [hq]
    rfl
  · rw [← hname]
    exact beq_iff_eq.mp hpred

theorem filterMap_dictGet (P : SceneObj → Prop) (m : List (String × SceneObj))
    (hm : dictInv P m) (ks : List String)
    (hks : ∀ k ∈ ks, k ∈ m.map (fun p => p.1)) :
    (ks.filterMap (fun k => dictGet m k)).map (fun o => o.name) = ks ∧
    ∀ o ∈ ks.filterMap (fun k => dictGet m k), P o := by
  induction ks with
  | nil => simp
  | cons k ks ih =>
    obtain ⟨v, hv, hvn, hvP⟩ := dictGet_mem P m hm k (hks k (List.mem_cons_self _ _))
    obtain ⟨ih1, ih2⟩ := ih (fun x hx => hks x (List.mem_cons_of_mem _ hx))
    constructor
    · simp only [List.filterMap_cons, hv, List.map_cons, ih1, hvn]
    · intro o ho
      simp only [List.filterMap_cons, hv, List.mem_cons] at ho
      rcases ho with ho | ho
      · subst ho; exact hvP
      · exact ih2 o ho

theorem uniqSorted_spec (P : SceneObj → Prop) (objs : List SceneObj)
    (hP : ∀ o ∈ objs, P o) :
    ((uniqSorted objs).map (fun o => o.name)).Nodup ∧
    List.Sorted (fun a b : String => a ≤ b)
      ((uniqSorted objs).map (fun o => o.name)) ∧
    ∀ o ∈ uniqSorted objs, P o := by
  unfold uniqSorted
  simp only []
  have hinv := dictFold_inv P objs hP
  have hperm := List.perm_insertionSort (fun a b : String => a ≤ b)
    ((objs.foldl dictUpsert []).map (fun p => p.1))
  have hmem : ∀ k ∈ ((objs.foldl dictUpsert []).map (fun p => p.1)).insertionSort
      (fun a b : String => a ≤ b),
      k ∈ (objs.foldl dictUpsert []).map (fun p => p.1) :=
    fun k hk => hperm.mem_iff.mp hk
  obtain ⟨heq, hPall⟩ := filterMap_dictGet P (objs.foldl dictUpsert []) hinv _ hmem
  refine ⟨?_, ?_, hPall⟩
  · rw [heq]
    exact hperm.nodup_iff.mpr hinv.1
  · rw [heq]
    exact List.sorted_insertionSort (fun a b : String => a ≤ b) _

/-- C3: for every context and scope, gather_targets returns mesh objects
only, deduplicated by object name and sorted ascending by name; the
COLLECTION scope with no collection set yields the empty list. -/
theorem gather_targets_spec (ctx : Ctx) (scope : Scope)
    (collection : Option Coll) (recursive : Bool) (visible_only : Bool) :
    (∀ o ∈ gather_targets ctx scope collection recursive visible_only,
      o.otype = ObjType.MESH) ∧
    ((gather_targets ctx scope collection recursive visible_only).map
      (fun o => o.name)).Nodup ∧
    List.Sorted (fun a b : String => a ≤ b)
      ((gather_targets ctx scope collection recursive visible_only).map
        (fun o => o.name)) ∧
    (scope = Scope.COLLECTION → collection = none →
      gather_targets ctx scope collection recursive visible_only = []) := by
  have hfilter : ∀ (vo : Bool) (l : List SceneObj),
      ∀ o ∈ mesh_and_visible_filter vo l, o.otype = ObjType.MESH := by
    intro vo l o ho
    unfold mesh_and_visible_filter at ho
    rw [List.mem_filter] at ho
    have := ho.2
    rw [Bool.and_eq_true, decide_eq_true_eq] at this
    exact this.1
  cases scope with
  | SELECTED =>
    obtain ⟨h1, h2, h3⟩ := uniqSorted_spec (fun o => o.otype = ObjType.MESH)
      (mesh_and_visible_filter visible_only ctx.selected_objects)
      (hfilter visible_only ctx.selected_objects)
    exact ⟨h3, h1, h2, by intro h; cases h⟩
  | VISIBLE =>
    obtain ⟨h1, h2, h3⟩ := uniqSorted_spec (fun o => o.otype = ObjType.MESH)
      (ctx.view_layer_objects.filter
        (fun o => decide (o.otype = ObjType.MESH) && o.visible))
      (by
        intro o ho
        rw [List.mem_filter, Bool.and_eq_true, decide_eq_true_eq] at ho
        exact ho.2.1)
    exact ⟨h3, h1, h2, by intro h; cases h⟩
  | COLLECTION =>
    cases collection with
    | none => exact ⟨by simp [gather_targets], by simp [gather_targets],
        by simp [gather_targets], fun _ _ => rfl⟩
    | some coll =>
      obtain ⟨h1, h2, h3⟩ := uniqSorted_spec (fun o => o.otype = ObjType.MESH)
        (mesh_and_visible_filter visible_only (iter_collection_objects coll recursive))
        (hfilter visible_only (iter_collection_objects coll recursive))
      exact ⟨h3, h1, h2, by intro _ h; cases h⟩

end NameExporter

/-! ### Super Renamer: character-level lemmas -/

namespace SuperRenamer

theorem char_toNat_ofNat {n : Nat} (h : n.isValidChar) : (Char.ofNat n).toNat = n := by
  simp only [Char.ofNat, h, dif_pos, Char.ofNatAux, Char.toNat, UInt32.toNat]
  exact BitVec.toNat_ofNatLt n _

theorem char_eq_of_toNat (c d : Char) (h : c.toNat = d.toNat) : c = d :=
  Char.eq_of_val_eq (UInt32.toNat.inj h)

theorem toLower_toNat (c : Char) (h : 65 ≤ c.toNat ∧ c.toNat ≤ 90) :
    (Char.toLower c).toNat = c.toNat + 32 := by
  simp only [Char.toLower, ge_iff_le, if_pos h]
  exact char_toNat_ofNat (Or.inl (by omega))

theorem toLower_eq_self (c : Char) (h : ¬ (65 ≤ c.toNat ∧ c.toNat ≤ 90)) :
    Char.toLower c = c := by
  simp only [Char.toLower, ge_iff_le, if_neg h]

theorem toLower_idem (c : Char) : Char.toLower (Char.toLower c) = Char.toLower c := by
  by_cases h : 65 ≤ c.toNat ∧ c.toNat ≤ 90
  · have h2 := toLower_toNat c h
    apply toLower_eq_self
    omega
  · rw [toLower_eq_self c h]
    exact toLower_eq_self c h

theorem toUpper_toNat (c : Char) (h : 97 ≤ c.toNat ∧ c.toNat ≤ 122) :
    (Char.toUpper c).toNat = c.toNat - 32 := by
  simp only [Char.toUpper, ge_iff_le, if_pos h]
  exact char_toNat_ofNat (Or.inl (by omega))

theorem toUpper_eq_self (c : Char) (h : ¬ (97 ≤ c.toNat ∧ c.toNat ≤ 122)) :
    Char.toUpper c = c := by
  simp only [Char.toUpper, ge_iff_le, if_neg h]

theorem toUpper_idem (c : Char) : Char.toUpper (Char.toUpper c) = Char.toUpper c := by
  by_cases h : 97 ≤ c.toNat ∧ c.toNat ≤ 122
  · have h2 := toUpper_toNat c h
    apply toUpper_eq_self
    omega
  · rw [toUpper_eq_self c h]
    exact toUpper_eq_self c h

theorem isAZ_iff (c : Char) : isAZ c = true ↔ (65 ≤ c.toNat ∧ c.toNat ≤ 90) := by
  unfold isAZ
  rw [Bool.and_eq_true, decide_eq_true_eq, decide_eq_true_eq]

theorem isAZ_false_iff (c : Char) : isAZ c = false ↔ ¬ (65 ≤ c.toNat ∧ c.toNat ≤ 90) := by
  rw [← isAZ_iff]
  exact ⟨fun h => by simp [h], fun h => by simpa using h⟩

theorem isSpaceDash_iff (c : Char) : isSpaceDash c = true ↔
    (c.toNat = 32 ∨ c.toNat = 9 ∨ c.toNat = 10 ∨ c.toNat = 13 ∨
     c.toNat = 11 ∨ c.toNat = 12 ∨ c.toNat = 45) := by
  unfold isSpaceDash
  simp only [Bool.or_eq_true, beq_iff_eq]
  constructor
  · intro h
    rcases h with ((((((rfl | rfl) | rfl) | rfl) | rfl) | rfl) | rfl) <;> decide
  · rintro (h | h | h | h | h | h | h)
    · have hc : c = ' ' := char_eq_of_toNat c ' ' (h.trans (by decide))
      tauto
    · have hc : c = '\t' := char_eq_of_toNat c '\t' (h.trans (by decide))
      tauto
    · have hc : c = '\n' := char_eq_of_toNat c '\n' (h.trans (by decide))
      tauto
    · have hc : c = '\r' := char_eq_of_toNat c '\r' (h.trans (by decide))
      tauto
    · have hc : c = '\x0b' := char_eq_of_toNat c '\x0b' (h.trans (by decide))
      tauto
    · have hc : c = '\x0c' := char_eq_of_toNat c '\x0c' (h.trans (by decide))
      tauto
    · have hc : c = '-' := char_eq_of_toNat c '-' (h.trans (by decide))
      tauto

theorem bool_eq_false_of_ne_true {b : Bool} (h : ¬ b = true) : b = false := by
  cases b
  · rfl
  · exact absurd rfl h

theorem isAZ_toLower (c : Char) : isAZ (Char.toLower c) = false := by
  by_cases h : 65 ≤ c.toNat ∧ c.toNat ≤ 90
  · have h2 := toLower_toNat c h
    apply bool_eq_false_of_ne_true
    rw [isAZ_iff, h2]
    omega
  · rw [toLower_eq_self c h]
    apply bool_eq_false_of_ne_true
    rw [isAZ_iff]
    exact h

theorem toLower_eq_self_of_isAZ_false (c : Char) (h : isAZ c = false) :
    Char.toLower c = c :=
  toLower_eq_self c ((isAZ_false_iff c).mp h)

theorem isSpaceDash_toLower (c : Char) (h : isSpaceDash c = false) :
    isSpaceDash (Char.toLower c) = false := by
  by_cases haz : 65 ≤ c.toNat ∧ c.toNat ≤ 90
  · have h2 := toLower_toNat c haz
    apply bool_eq_false_of_ne_true
    rw [isSpaceDash_iff, h2]
    omega
  · rw [toLower_eq_self c haz]
    exact h

theorem toLower_underscore_iff (c : Char) : Char.toLower c = '_' ↔ c = '_' := by
  by_cases haz : 65 ≤ c.toNat ∧ c.toNat ≤ 90
  · have h2 := toLower_toNat c haz
    constructor
    · intro h
      have : (Char.toLower c).toNat = 95 := by rw [h]; decide
      omega
    · intro h
      subst h
      exact absurd haz (by decide)
  · rw [toLower_eq_self c haz]

theorem upper_map_idem (l : List Char) :
    (l.map Char.toUpper).map Char.toUpper = l.map Char.toUpper := by
  rw [List.map_map]
  apply List.map_congr_left
  intro c _
  exact toUpper_idem c

theorem lower_map_idem (l : List Char) :
    (l.map Char.toLower).map Char.toLower = l.map Char.toLower := by
  rw [List.map_map]
  apply List.map_congr_left
  intro c _
  exact toLower_idem c

/-- C10: for every name and non-empty prefix string, the PREFIX operation
followed by REMOVE_PREFIX with the same string returns the name unchanged;
symmetrically for SUFFIX followed by REMOVE_SUFFIX. -/
theorem prefix_suffix_roundtrip (reLib : RegexOracle) (props : RenamerProps)
    (name : List Char) (hp : props.prefix_string ≠ [])
    (hs : props.suffix_string ≠ []) :
    apply_rename reLib
      (apply_rename reLib name { props with operation := Operation.PREFIX })
      { props with operation := Operation.REMOVE_PREFIX } = name ∧
    apply_rename reLib
      (apply_rename reLib name { props with operation := Operation.SUFFIX })
      { props with operation := Operation.REMOVE_SUFFIX } = name := by
  constructor
  · simp only [apply_rename]
    rw [if_pos ⟨hp, List.prefix_append _ _⟩]
    exact List.drop_left _ _
  · simp only [apply_rename]
    rw [if_pos ⟨hs, List.suffix_append _ _⟩]
    rw [List.length_append, Nat.add_sub_cancel]
    exact List.take_left _ _

/-- C10 witness: "Cube" with prefix "SM_" and suffix "_low". -/
theorem prefix_suffix_roundtrip_witness :
    apply_rename sampleRe
      (apply_rename sampleRe ['C', 'u', 'b', 'e']
        { sampleProps with operation := Operation.PREFIX })
      { sampleProps with operation := Operation.REMOVE_PREFIX } = ['C', 'u', 'b', 'e'] ∧
    apply_rename sampleRe
      (apply_rename sampleRe ['C', 'u', 'b', 'e']
        { sampleProps with operation := Operation.SUFFIX })
      { sampleProps with operation := Operation.REMOVE_SUFFIX } = ['C', 'u', 'b', 'e'] :=
  prefix_suffix_roundtrip sampleRe sampleProps ['C', 'u', 'b', 'e']
    (by simp [sampleProps]) (by simp [sampleProps])

end SuperRenamer

namespace SuperRenamer

theorem subRunsGo_cons_pos_true (p : Char → Bool) (r : Char) (a : Char)
    (rest : List Char) (hp : p a = true) :
    subRunsGo p r true (a :: rest) = subRunsGo p r true rest := by
  simp [subRunsGo, hp]

theorem subRunsGo_cons_pos_false (p : Char → Bool) (r : Char) (a : Char)
    (rest : List Char) (hp : p a = true) :
    subRunsGo p r false (a :: rest) = r :: subRunsGo p r true rest := by
  simp [subRunsGo, hp]

theorem subRunsGo_cons_neg (p : Char → Bool) (r : Char) (b : Bool) (a : Char)
    (rest : List Char) (hp : p a = false) :
    subRunsGo p r b (a :: rest) = a :: subRunsGo p r false rest := by
  cases b <;> simp [subRunsGo, hp]

theorem subRunsGo_chars (p : Char → Bool) (r : Char) :
    ∀ (l : List Char) (b : Bool) (c : Char), c ∈ subRunsGo p r b l →
      c = r ∨ (c ∈ l ∧ p c = false) := by
  intro l
  induction l with
  | nil => intro b c hc; simp [subRunsGo] at hc
  | cons a rest ih =>
    intro b c hc
    by_cases hp : p a = true
    · cases b with
      | true =>
        rw [subRunsGo_cons_pos_true p r a rest hp] at hc
        rcases ih true c hc with h | h
        · exact Or.inl h
        · exact Or.inr ⟨List.mem_cons_of_mem _ h.1, h.2⟩
      | false =>
        rw [subRunsGo_cons_pos_false p r a rest hp] at hc
        rcases List.mem_cons.mp hc with h | h
        · exact Or.inl h
        · rcases ih true c h with h2 | h2
          · exact Or.inl h2
          · exact Or.inr ⟨List.mem_cons_of_mem _ h2.1, h2.2⟩
    · have hp2 : p a = false := bool_eq_false_of_ne_true hp
      rw [subRunsGo_cons_neg p r b a rest hp2] at hc
      rcases List.mem_cons.mp hc with h | h
      · subst h
        exact Or.inr ⟨List.mem_cons_self _ _, hp2⟩
      · rcases ih false c h with h2 | h2
        · exact Or.inl h2
        · exact Or.inr ⟨List.mem_cons_of_mem _ h2.1, h2.2⟩

theorem subRunsGo_true_head (p : Char → Bool) (r : Char) :
    ∀ l : List Char, ∀ c ∈ (subRunsGo p r true l).head?, p c = false := by
  intro l
  induction l with
  | nil => intro c hc; simp [subRunsGo] at hc
  | cons a rest ih =>
    intro c hc
    by_cases hp : p a = true
    · rw [subRunsGo_cons_pos_true p r a rest hp] at hc
      exact ih c hc
    · have hp2 : p a = false := bool_eq_false_of_ne_true hp
      rw [subRunsGo_cons_neg p r true a rest hp2] at hc
      simp only [List.head?_cons, Option.mem_def, Option.some.injEq] at hc
      subst hc
      exact hp2

theorem subRunsGo_true_eq_false (p : Char → Bool) (r : Char) (l : List Char)
    (h : ∀ c ∈ l.head?, p c = false) :
    subRunsGo p r true l = subRunsGo p r false l := by
  cases l with
  | nil => rfl
  | cons a rest =>
    have ha : p a = false := h a (by simp)
    rw [subRunsGo_cons_neg p r true a rest ha, subRunsGo_cons_neg p r false a rest ha]

theorem subRunsGo_chain (p : Char → Bool) (r : Char) :
    ∀ (l : List Char) (b : Bool),
    List.Chain' (fun a c => ¬(p a = true ∧ p c = true)) (subRunsGo p r b l) := by
  intro l
  induction l with
  | nil => intro b; simp [subRunsGo]
  | cons a rest ih =>
    intro b
    by_cases hp : p a = true
    · cases b with
      | true =>
        rw [subRunsGo_cons_pos_true p r a rest hp]
        exact ih true
      | false =>
        rw [subRunsGo_cons_pos_false p r a rest hp]
        rw [List.chain'_cons']
        refine ⟨?_, ih true⟩
        intro y hy hcon
        have hyp := subRunsGo_true_head p r rest y hy
        rw [hyp] at hcon
        exact absurd hcon.2 (by simp)
    · have hp2 : p a = false := bool_eq_false_of_ne_true hp
      rw [subRunsGo_cons_neg p r b a rest hp2]
      rw [List.chain'_cons']
      refine ⟨?_, ih false⟩
      intro y _ hcon
      rw [hp2] at hcon
      exact absurd hcon.1 (by simp)

theorem subRuns_eq_map (p : Char → Bool) (r : Char) :
    ∀ l : List Char, List.Chain' (fun a c => ¬(p a = true ∧ p c = true)) l →
    subRuns p r l = l.map (fun c => if p c then r else c) := by
  intro l
  induction l with
  | nil => intro _; rfl
  | cons a rest ih =>
    intro hch
    rw [List.chain'_cons'] at hch
    obtain ⟨hhead, hch⟩ := hch
    unfold subRuns at ih ⊢
    by_cases hp : p a = true
    · rw [subRunsGo_cons_pos_false p r a rest hp]
      rw [subRunsGo_true_eq_false p r rest (by
        intro c hc
        by_cases h2 : p c = true
        · exact absurd ⟨hp, h2⟩ (hhead c hc)
        · exact bool_eq_false_of_ne_true h2)]
      rw [ih hch, List.map_cons, if_pos hp]
    · have hp2 : p a = false := bool_eq_false_of_ne_true hp
      rw [subRunsGo_cons_neg p r false a rest hp2]
      rw [ih hch, List.map_cons, if_neg hp]

theorem list_map_self {l : List Char} {f : Char → Char}
    (h : ∀ c ∈ l, f c = c) : l.map f = l := by
  induction l with
  | nil => rfl
  | cons a rest ih =>
    rw [List.map_cons, h a (List.mem_cons_self _ _),
      ih (fun c hc => h c (List.mem_cons_of_mem _ hc))]

theorem subRuns_id (p : Char → Bool) (r : Char) (l : List Char)
    (hch : List.Chain' (fun a c => ¬(p a = true ∧ p c = true)) l)
    (hpr : ∀ c ∈ l, p c = true → c = r) :
    subRuns p r l = l := by
  rw [subRuns_eq_map p r l hch]
  apply list_map_self
  intro c hc
  by_cases hp : p c = true
  · rw [if_pos hp]
    exact (hpr c hc hp).symm
  · rw [if_neg hp]

theorem chain_of_all_false {l : List Char} {p : Char → Bool}
    (h : ∀ c ∈ l, p c = false) :
    List.Chain' (fun a c => ¬(p a = true ∧ p c = true)) l := by
  induction l with
  | nil => simp
  | cons a rest ih =>
    rw [List.chain'_cons']
    refine ⟨?_, ih (fun c hc => h c (List.mem_cons_of_mem _ hc))⟩
    intro y _ hcon
    rw [h a (List.mem_cons_self _ _)] at hcon
    exact absurd hcon.1 (by simp)

theorem subRuns_id_of_none (p : Char → Bool) (r : Char) (l : List Char)
    (h : ∀ c ∈ l, p c = false) : subRuns p r l = l :=
  subRuns_id p r l (chain_of_all_false h)
    (fun c hc hp => absurd hp (by simp [h c hc]))

theorem camelTail_id : ∀ l : List Char, (∀ c ∈ l, isAZ c = false) →
    camelTail l = l := by
  intro l
  induction l with
  | nil => intro _; rfl
  | cons a rest ih =>
    intro h
    unfold camelTail
    rw [h a (List.mem_cons_self _ _)]
    rw [ih (fun c hc => h c (List.mem_cons_of_mem _ hc))]
    simp

theorem camelSplit_id (l : List Char) (h : ∀ c ∈ l, isAZ c = false) :
    camelSplit l = l := by
  cases l with
  | nil => rfl
  | cons a rest =>
    show a :: camelTail rest = a :: rest
    rw [camelTail_id rest (fun c hc => h c (List.mem_cons_of_mem _ hc))]

end SuperRenamer

namespace SuperRenamer

theorem head_dropWhile_false (q : Char → Bool) :
    ∀ l : List Char, ∀ c ∈ (l.dropWhile q).head?, q c = false := by
  intro l
  induction l with
  | nil => intro c hc; simp [List.dropWhile] at hc
  | cons a rest ih =>
    intro c hc
    by_cases hq : q a = true
    · rw [List.dropWhile_cons, if_pos hq] at hc
      exact ih c hc
    · have hq2 : q a = false := bool_eq_false_of_ne_true hq
      rw [List.dropWhile_cons, if_neg (by simp [hq2])] at hc
      simp only [List.head?_cons, Option.mem_def, Option.some.injEq] at hc
      subst hc
      exact hq2

theorem stripChar_mem (c : Char) (l : List Char) :
    ∀ d ∈ stripChar c l, d ∈ l := by
  intro d hd
  unfold stripChar at hd
  rw [List.mem_reverse] at hd
  have h1 := (List.dropWhile_sublist _).subset hd
  rw [List.mem_reverse] at h1
  exact (List.dropWhile_sublist _).subset h1

theorem stripChar_chain (c : Char) (l : List Char) (R : Char → Char → Prop)
    (hsymm : ∀ a b, R a b → R b a) (h : List.Chain' R l) :
    List.Chain' R (stripChar c l) := by
  unfold stripChar
  have h1 : List.Chain' R (l.dropWhile (fun d => d == c)) :=
    h.suffix (List.dropWhile_suffix _)
  have h2 : List.Chain' R ((l.dropWhile (fun d => d == c)).reverse) :=
    List.chain'_reverse.mpr (h1.imp (fun a b hab => hsymm a b hab))
  have h3 : List.Chain' R
      (((l.dropWhile (fun d => d == c)).reverse).dropWhile (fun d => d == c)) :=
    h2.suffix (List.dropWhile_suffix _)
  exact List.chain'_reverse.mpr (h3.imp (fun a b hab => hsymm a b hab))

theorem stripChar_getLast (c : Char) (l : List Char) :
    ∀ d ∈ (stripChar c l).getLast?, (d == c) = false := by
  intro d hd
  unfold stripChar at hd
  rw [List.getLast?_reverse] at hd
  exact head_dropWhile_false _ _ d hd

theorem getLast?_of_suffix {l₁ l₂ : List Char} (h : l₁ <:+ l₂) (hne : l₁ ≠ []) :
    l₁.getLast? = l₂.getLast? := by
  obtain ⟨t, rfl⟩ := h
  exact (List.getLast?_append_of_ne_nil t hne).symm

theorem stripChar_head (c : Char) (l : List Char) :
    ∀ d ∈ (stripChar c l).head?, (d == c) = false := by
  intro d hd
  unfold stripChar at hd
  rw [List.head?_reverse] at hd
  have hne : ((l.dropWhile (fun e => e == c)).reverse.dropWhile (fun e => e == c)) ≠ [] := by
    intro hnil
    rw [hnil] at hd
    simp at hd
  rw [getLast?_of_suffix (List.dropWhile_suffix _) hne] at hd
  rw [List.getLast?_reverse] at hd
  exact head_dropWhile_false _ _ d hd

theorem dropWhile_id_of_head (q : Char → Bool) (l : List Char)
    (h : ∀ c ∈ l.head?, q c = false) : l.dropWhile q = l := by
  cases l with
  | nil => rfl
  | cons a rest =>
    have ha : q a = false := h a (by simp)
    rw [List.dropWhile_cons, if_neg (by simp [ha])]

theorem stripChar_id (c : Char) (l : List Char)
    (hhead : ∀ d ∈ l.head?, (d == c) = false)
    (hlast : ∀ d ∈ l.getLast?, (d == c) = false) :
    stripChar c l = l := by
  unfold stripChar
  rw [dropWhile_id_of_head _ l hhead]
  rw [dropWhile_id_of_head _ l.reverse (by
    intro d hd
    rw [List.head?_reverse] at hd
    exact hlast d hd)]
  exact List.reverse_reverse l

end SuperRenamer

namespace SuperRenamer

theorem to_snake_case_nf (name : List Char) : SnakeNF (to_snake_case name) := by
  unfold to_snake_case
  have hs2 : ∀ c ∈ subRuns isSpaceDash '_' (camelSplit name),
      isSpaceDash c = false := by
    intro c hc
    unfold subRuns at hc
    rcases subRunsGo_chars isSpaceDash '_' (camelSplit name) false c hc with h | h
    · subst h; decide
    · exact h.2
  have hs3chars := subRunsGo_chars (fun c => c == '_') '_'
    (subRuns isSpaceDash '_' (camelSplit name)) false
  have hs3sep : ∀ c ∈ subRuns (fun c => c == '_') '_'
      (subRuns isSpaceDash '_' (camelSplit name)), isSpaceDash c = false := by
    intro c hc
    unfold subRuns at hc
    rcases hs3chars c hc with h | h
    · subst h; decide
    · exact hs2 c h.1
  have hs3chain := subRunsGo_chain (fun c => c == '_') '_'
    (subRuns isSpaceDash '_' (camelSplit name)) false
  have hs4AZ : ∀ c ∈ (subRuns (fun c => c == '_') '_'
      (subRuns isSpaceDash '_' (camelSplit name))).map Char.toLower,
      isAZ c = false := by
    intro c hc
    rw [List.mem_map] at hc
    obtain ⟨d, -, rfl⟩ := hc
    exact isAZ_toLower d
  have hs4sep : ∀ c ∈ (subRuns (fun c => c == '_') '_'
      (subRuns isSpaceDash '_' (camelSplit name))).map Char.toLower,
      isSpaceDash c = false := by
    intro c hc
    rw [List.mem_map] at hc
    obtain ⟨d, hd, rfl⟩ := hc
    exact isSpaceDash_toLower d (hs3sep d hd)
  have hs4chain : List.Chain' (fun a b => ¬(a = '_' ∧ b = '_'))
      ((subRuns (fun c => c == '_') '_'
        (subRuns isSpaceDash '_' (camelSplit name))).map Char.toLower) := by
    rw [List.chain'_map]
    apply hs3chain.imp
    intro a b hcon h2
    exact hcon ⟨beq_iff_eq.mpr ((toLower_underscore_iff a).mp h2.1),
      beq_iff_eq.mpr ((toLower_underscore_iff b).mp h2.2)⟩
  refine ⟨?_, ?_, ?_, ?_⟩
  · intro c hc
    have hmem := stripChar_mem '_' _ c hc
    exact ⟨hs4AZ c hmem, hs4sep c hmem⟩
  · exact stripChar_chain '_' _ _ (fun a b h hcon => h ⟨hcon.2, hcon.1⟩) hs4chain
  · intro d hd
    exact ne_of_beq_false (stripChar_head '_' _ d hd)
  · intro d hd
    exact ne_of_beq_false (stripChar_getLast '_' _ d hd)

theorem to_snake_case_id_of_nf (l : List Char) (h : SnakeNF l) :
    to_snake_case l = l := by
  obtain ⟨hchars, hchain, hhead, hlast⟩ := h
  unfold to_snake_case
  rw [camelSplit_id l (fun c hc => (hchars c hc).1)]
  rw [subRuns_id_of_none isSpaceDash '_' l (fun c hc => (hchars c hc).2)]
  rw [subRuns_id (fun c => c == '_') '_' l
    (hchain.imp (fun a b hcon h2 =>
      hcon ⟨beq_iff_eq.mp h2.1, beq_iff_eq.mp h2.2⟩))
    (fun c _ hc => beq_iff_eq.mp hc)]
  rw [list_map_self (fun c hc => toLower_eq_self_of_isAZ_false c ((hchars c hc).1))]
  exact stripChar_id '_' l
    (fun d hd => beq_eq_false_iff_ne.mpr (hhead d hd))
    (fun d hd => beq_eq_false_iff_ne.mpr (hlast d hd))

theorem to_snake_case_idem (name : List Char) :
    to_snake_case (to_snake_case name) = to_snake_case name :=
  to_snake_case_id_of_nf _ (to_snake_case_nf name)

end SuperRenamer

namespace SuperRenamer

theorem chain_and_mem {R : Char → Char → Prop} {P : Char → Prop} :
    ∀ {l : List Char}, List.Chain' R l → (∀ c ∈ l, P c) →
    List.Chain' (fun a b => R a b ∧ P a ∧ P b) l := by
  intro l
  induction l with
  | nil => intro _ _; simp
  | cons a rest ih =>
    intro hch hP
    rw [List.chain'_cons'] at hch ⊢
    refine ⟨?_, ih hch.2 (fun c hc => hP c (List.mem_cons_of_mem _ hc))⟩
    intro y hy
    exact ⟨hch.1 y hy, hP a (List.mem_cons_self _ _),
      hP y (List.mem_cons_of_mem _ (List.mem_of_mem_head? hy))⟩

theorem to_kebab_case_idem (name : List Char) :
    to_kebab_case (to_kebab_case name) = to_kebab_case name := by
  obtain ⟨hchars, hchain, hhead, hlast⟩ := to_snake_case_nf name
  have hAZdash : isAZ '-' = false := by decide
  have hsepdash : isSpaceDash '-' = true := by decide
  have htAZ : ∀ c ∈ (to_snake_case name).map (fun c => if c == '_' then '-' else c),
      isAZ c = false := by
    intro c hc
    rw [List.mem_map] at hc
    obtain ⟨d, hd, rfl⟩ := hc
    by_cases hdu : (d == '_') = true
    · rw [if_pos hdu]; exact hAZdash
    · rw [if_neg hdu]; exact (hchars d hd).1
  have hstep1 : camelSplit
      ((to_snake_case name).map (fun c => if c == '_' then '-' else c))
      = (to_snake_case name).map (fun c => if c == '_' then '-' else c) :=
    camelSplit_id _ htAZ
  have htchain : List.Chain'
      (fun a b => ¬(isSpaceDash a = true ∧ isSpaceDash b = true))
      ((to_snake_case name).map (fun c => if c == '_' then '-' else c)) := by
    rw [List.chain'_map]
    apply (chain_and_mem hchain (fun c hc => (hchars c hc).2)).imp
    intro a b hcon h2
    obtain ⟨hR, hPa, hPb⟩ := hcon
    apply hR
    constructor
    · by_cases hau : (a == '_') = true
      · exact beq_iff_eq.mp hau
      · rw [if_neg hau] at h2
        rw [hPa] at h2
        exact absurd h2.1 (by simp)
    · by_cases hbu : (b == '_') = true
      · exact beq_iff_eq.mp hbu
      · rw [if_neg hbu] at h2
        rw [hPb] at h2
        exact absurd h2.2 (by simp)
  have hstep2 : subRuns isSpaceDash '_'
      ((to_snake_case name).map (fun c => if c == '_' then '-' else c))
      = to_snake_case name := by
    rw [subRuns_eq_map isSpaceDash '_' _ htchain, List.map_map]
    apply list_map_self
    intro c hc
    by_cases hcu : (c == '_') = true
    · have hc2 : c = '_' := beq_iff_eq.mp hcu
      simp only [Function.comp_apply, if_pos hcu, hsepdash, if_true, reduceIte]
      exact hc2.symm
    · have hc2 : isSpaceDash c = false := (hchars c hc).2
      simp only [Function.comp_apply, if_neg hcu, hc2]
      simp
  have hstep3 : subRuns (fun c => c == '_') '_' (to_snake_case name)
      = to_snake_case name :=
    subRuns_id _ _ _
      (hchain.imp (fun a b hcon h2 =>
        hcon ⟨beq_iff_eq.mp h2.1, beq_iff_eq.mp h2.2⟩))
      (fun c _ hc => beq_iff_eq.mp hc)
  have hstep4 : (to_snake_case name).map Char.toLower = to_snake_case name :=
    list_map_self (fun c hc => toLower_eq_self_of_isAZ_false c ((hchars c hc).1))
  have hstep5 : stripChar '_' (to_snake_case name) = to_snake_case name :=
    stripChar_id '_' _
      (fun d hd => beq_eq_false_iff_ne.mpr (hhead d hd))
      (fun d hd => beq_eq_false_iff_ne.mpr (hlast d hd))
  have hsnake : to_snake_case
      ((to_snake_case name).map (fun c => if c == '_' then '-' else c))
      = to_snake_case name := by
    unfold to_snake_case at hstep1 hstep2 hstep3 hstep4 hstep5 ⊢
    rw [hstep1, hstep2, hstep3, hstep4, hstep5]
  unfold to_kebab_case
  rw [hsnake]

end SuperRenamer

namespace SuperRenamer

/-- C7: for fixed rename settings and any name, apply_rename is
deterministic, and for the idempotent case conversions (UPPER, LOWER,
snake_case, kebab-case) applying apply_rename twice yields the same result
as applying it once. -/
theorem apply_rename_deterministic_idem (reLib : RegexOracle)
    (props : RenamerProps) (name : List Char) :
    (apply_rename reLib name props = apply_rename reLib name props) ∧
    (props.operation = Operation.CASE →
      (props.case_type = CaseType.UPPER ∨ props.case_type = CaseType.LOWER ∨
       props.case_type = CaseType.SNAKE ∨ props.case_type = CaseType.KEBAB) →
      apply_rename reLib (apply_rename reLib name props) props
        = apply_rename reLib name props) := by
  refine ⟨rfl, ?_⟩
  intro hop hct
  simp only [apply_rename, hop]
  rcases hct with h | h | h | h <;> rw [h] <;> simp only [apply_case_conversion]
  · exact upper_map_idem name
  · exact lower_map_idem name
  · exact to_snake_case_idem name
  · exact to_kebab_case_idem name

/-- C7 witness: the snake conversion evaluated at the name "My Cube". -/
theorem apply_rename_deterministic_idem_witness :
    (apply_rename sampleRe ['M', 'y', ' ', 'C', 'u', 'b', 'e'] sampleProps
      = apply_rename sampleRe ['M', 'y', ' ', 'C', 'u', 'b', 'e'] sampleProps) ∧
    (sampleProps.operation = Operation.CASE →
      (sampleProps.case_type = CaseType.UPPER ∨
       sampleProps.case_type = CaseType.LOWER ∨
       sampleProps.case_type = CaseType.SNAKE ∨
       sampleProps.case_type = CaseType.KEBAB) →
      apply_rename sampleRe
        (apply_rename sampleRe ['M', 'y', ' ', 'C', 'u', 'b', 'e'] sampleProps)
        sampleProps
        = apply_rename sampleRe ['M', 'y', ' ', 'C', 'u', 'b', 'e'] sampleProps) :=
  apply_rename_deterministic_idem sampleRe sampleProps
    ['M', 'y', ' ', 'C', 'u', 'b', 'e']

end SuperRenamer
